import Mathlib

/-!
Verification of the bitmap library (wernsey/bitmap, `bmp.c`) against its
natural-language specification.  The C code is shallowly embedded: pixel
buffers, palettes and codec byte streams become Lean data (`Nat` words,
`List Nat` byte lists), imperative loops become structural recursions, and
machine integers become `Nat`/`Int` with explicit `% 2^32` where overflow
matters.  Compile-time switches take their default values from the source:
`ABGR = 0`, `IGNORE_ALPHA = 1`, `RGB_BETTER_COMPARE = 1`, `SIZE_LIMITS = 1`.
-/

namespace Bmp

/-! ### Bitmap pixel buffer (`bm_get` / `bm_set`, bmp.c:3973-3987)

The pixel buffer is `W*H` 32-bit pixels; `bm_get`/`bm_set` access the buffer
through an aligned `unsigned int*` at byte offset `y * BM_ROW_SIZE(b) + x *
BM_BPP` with `BM_ROW_SIZE(b) = 4*w` and `BM_BPP = 4`, i.e. 32-bit word number
`y*w + x`.  We model the buffer as a function from word index to word value;
`bm_set` stores the C `unsigned int` argument, i.e. the value mod `2^32`. -/

structure Bitmap where
  w : Nat
  h : Nat
  data : Nat → Nat

/-- `bm_get` (bmp.c:3973): read the 32-bit pixel at `(x,y)`. -/
def bm_get (b : Bitmap) (x y : Nat) : Nat :=
  b.data (y * b.w + x)

/-- `bm_set` (bmp.c:3981): store the 32-bit colour `c` at `(x,y)`. -/
def bm_set (b : Bitmap) (x y c : Nat) : Bitmap :=
  { b with data := fun i => if i = y * b.w + x then c % 2 ^ 32 else b.data i }

/-- Word index `y*w + x` is injective on coordinates with `x < w`. -/
theorem pixel_index_inj {w x x' y y' : Nat} (hx : x < w) (hx' : x' < w)
    (h : y' * w + x' = y * w + x) : x' = x ∧ y' = y := by
  have hw : 0 < w := lt_of_le_of_lt (Nat.zero_le x) hx
  have h1 : (y' * w + x') % w = (y * w + x) % w := by rw [h]
  simp only [Nat.mul_mod_left, Nat.mul_add_mod, Nat.mul_add_mod',
    Nat.mod_eq_of_lt hx, Nat.mod_eq_of_lt hx'] at h1
  subst h1
  refine ⟨rfl, Nat.eq_of_mul_eq_mul_right hw ?_⟩
  omega

/-! ### Palette object (`bm_palette_set` / `bm_palette_get`, bmp.c:6848-6861)

A palette is an array of colour entries with a count `ncolors`; we model the
entries as a `List Nat` whose length is the count.  Indices are C `int`s,
so they are modelled as `Int` (they can be negative). -/

/-- `bm_palette_count` (bmp.c:6829): number of colours in the palette. -/
def bm_palette_count (pal : List Nat) : Int :=
  (pal.length : Int)

/-- `bm_palette_get` (bmp.c:6856): entry at `index`, or `0` when the index
is out of range. -/
def bm_palette_get (pal : List Nat) (index : Int) : Nat :=
  if index < 0 ∨ (pal.length : Int) ≤ index then 0
  else pal.getD index.toNat 0

/-- `bm_palette_set` (bmp.c:6848): returns `-1` and leaves the palette
unchanged when `index` is out of range, otherwise stores `color` at `index`
and returns `index`.  The result pairs the C return value with the palette
state after the call. -/
def bm_palette_set (pal : List Nat) (index : Int) (color : Nat) : Int × List Nat :=
  if index < 0 ∨ (pal.length : Int) ≤ index then (-1, pal)
  else (index, pal.set index.toNat color)

/-- C3: setting a pixel inside the bounds and reading it back returns exactly
the colour that was set, and every other in-bounds pixel is unchanged. -/
theorem set_then_get (b : Bitmap) (x y c : Nat) (hx : x < b.w) (hy : y < b.h)
    (hc : c < 2 ^ 32) :
    bm_get (bm_set b x y c) x y = c ∧
    ∀ x' y', x' < b.w → y' < b.h → ¬(x' = x ∧ y' = y) →
      bm_get (bm_set b x y c) x' y' = bm_get b x' y' := by
  constructor
  · have h : bm_get (bm_set b x y c) x y = c % 2 ^ 32 := by
      simp [bm_get, bm_set]
    rw [h]
    omega
  · intro x' y' hx' _ hne
    simp only [bm_get, bm_set]
    rw [if_neg]
    intro h
    exact hne (pixel_index_inj hx hx' h)

/-- Witness for C3 at a concrete bitmap. -/
theorem set_then_get_witness :
    bm_get (bm_set ⟨2, 2, fun _ => 0⟩ 1 1 5) 1 1 = 5 ∧
    bm_get (bm_set ⟨2, 2, fun _ => 0⟩ 1 1 5) 0 1 = bm_get ⟨2, 2, fun _ => 0⟩ 0 1 :=
  have h := set_then_get ⟨2, 2, fun _ => 0⟩ 1 1 5 (by decide) (by decide) (by decide)
  ⟨h.1, h.2 0 1 (by decide) (by decide) (by decide)⟩

/-- C10: for an out-of-range index, `bm_palette_get` returns 0 and
`bm_palette_set` returns `-1` leaving the palette (entries and count)
unchanged; for an in-range index, `bm_palette_set` returns the index. -/
theorem palette_set_get_range (pal : List Nat) (i : Int) (c : Nat) :
    ((i < 0 ∨ (pal.length : Int) ≤ i) →
        bm_palette_get pal i = 0 ∧ bm_palette_set pal i c = (-1, pal)) ∧
    (0 ≤ i → i < (pal.length : Int) → (bm_palette_set pal i c).1 = i) := by
  constructor
  · intro h
    constructor
    · simp [bm_palette_get, h]
    · simp [bm_palette_set, h]
  · intro h0 hlt
    simp [bm_palette_set, not_or, not_lt.mpr h0, not_le.mpr hlt]

/-- Witness for C10 at a concrete palette. -/
theorem palette_set_get_range_witness :
    bm_palette_get [3, 4] 7 = 0 ∧ bm_palette_set [3, 4] 7 5 = (-1, [3, 4]) ∧
    (bm_palette_set [3, 4] 1 9).1 = 1 :=
  have h1 := (palette_set_get_range [3, 4] 7 5).1 (by decide)
  have h2 := (palette_set_get_range [3, 4] 1 9).2 (by decide) (by decide)
  ⟨h1.1, h1.2, h2⟩

/-! ### Colour helpers (`bm_get_rgb`, bmp.c:5564, with `ABGR = 0`) -/

/-- Red byte of a colour: `(col >> 16) & 0xFF`. -/
def colR (c : Nat) : Nat := c / 2 ^ 16 % 256

/-- Green byte of a colour: `(col >> 8) & 0xFF`. -/
def colG (c : Nat) : Nat := c / 2 ^ 8 % 256

/-- Blue byte of a colour: `col & 0xFF`. -/
def colB (c : Nat) : Nat := c % 256

/-- The (R,G,B) byte triple of a colour, as extracted by `bm_get_rgb`. -/
def rgbTriple (c : Nat) : Nat × Nat × Nat := (colR c, colG c, colB c)

/-! ### Weighted colour distance (`RGB_BETTER_COMPARE = 1`, bmp.c:6868-6886)

The source computes `d = sqrt((((512+rmean)*r*r)>>8) + 4*g*g +
(((767-rmean)*b*b)>>8))` as a `double` and compares the `d` values.  The
radicand is a nonnegative integer below `2^20`; on such integers the
correctly-rounded `sqrt` is exact enough to be strictly monotone (consecutive
radicands differ in `sqrt` by at least `2^-11`, far above the `~2^-42` ulp),
so comparing the doubles is equivalent to comparing the integer radicands.
We therefore model the loop state on the radicand scale; the initial bounds
(`1e10` in `bm_palette_nearest_index`, `INT_MAX` in
`bm_reduce_palette_nearest`) exceed every possible value on either scale, so
they are kept verbatim as `Nat` constants. -/

/-- Radicand of the weighted colour distance of bmp.c:6880 / bmp.c:6776:
`rmean = (R1+R2)/2`, the channel differences are signed ints whose squares
are `(max-min)^2` over `Nat`, and `>> 8` on the nonnegative products is
division by 256. -/
def wdist (c1 c2 : Nat) : Nat :=
  (512 + (colR c1 + colR c2) / 2) *
      ((max (colR c1) (colR c2) - min (colR c1) (colR c2)) *
        (max (colR c1) (colR c2) - min (colR c1) (colR c2))) / 256 +
    4 * ((max (colG c1) (colG c2) - min (colG c1) (colG c2)) *
        (max (colG c1) (colG c2) - min (colG c1) (colG c2))) +
    (767 - (colR c1 + colR c2) / 2) *
      ((max (colB c1) (colB c2) - min (colB c1) (colB c2)) *
        (max (colB c1) (colB c2) - min (colB c1) (colB c2))) / 256

theorem colR_lt (c : Nat) : colR c < 256 := Nat.mod_lt _ (by omega)

theorem colG_lt (c : Nat) : colG c < 256 := Nat.mod_lt _ (by omega)

theorem colB_lt (c : Nat) : colB c < 256 := Nat.mod_lt _ (by omega)

/-- Two colours with different RGB triples are at positive weighted distance. -/
theorem wdist_pos {c1 c2 : Nat} (h : rgbTriple c1 ≠ rgbTriple c2) :
    1 ≤ wdist c1 c2 := by
  unfold wdist
  have hr1 := colR_lt c1
  have hr2 := colR_lt c2
  by_cases hR : colR c1 = colR c2
  · by_cases hG : colG c1 = colG c2
    · have hB : colB c1 ≠ colB c2 := by
        intro hB
        exact h (by simp [rgbTriple, hR, hG, hB])
      have hdb : 1 ≤ max (colB c1) (colB c2) - min (colB c1) (colB c2) := by omega
      have h1 : 2 ≤ (767 - (colR c1 + colR c2) / 2) *
          ((max (colB c1) (colB c2) - min (colB c1) (colB c2)) *
            (max (colB c1) (colB c2) - min (colB c1) (colB c2))) / 256 := by
        rw [Nat.le_div_iff_mul_le (by omega : 0 < 256)]
        calc 2 * 256 = 512 * (1 * 1) := by norm_num
        _ ≤ (767 - (colR c1 + colR c2) / 2) *
            ((max (colB c1) (colB c2) - min (colB c1) (colB c2)) *
              (max (colB c1) (colB c2) - min (colB c1) (colB c2))) := by
          apply Nat.mul_le_mul (by omega)
          exact Nat.mul_le_mul hdb hdb
      omega
    · have hdg : 1 ≤ max (colG c1) (colG c2) - min (colG c1) (colG c2) := by omega
      have h1 : 4 * 1 ≤ 4 * ((max (colG c1) (colG c2) - min (colG c1) (colG c2)) *
          (max (colG c1) (colG c2) - min (colG c1) (colG c2))) :=
        Nat.mul_le_mul_left 4 (Nat.mul_le_mul hdg hdg)
      omega
  · have hdr : 1 ≤ max (colR c1) (colR c2) - min (colR c1) (colR c2) := by omega
    have h1 : 2 ≤ (512 + (colR c1 + colR c2) / 2) *
        ((max (colR c1) (colR c2) - min (colR c1) (colR c2)) *
          (max (colR c1) (colR c2) - min (colR c1) (colR c2))) / 256 := by
      rw [Nat.le_div_iff_mul_le (by omega : 0 < 256)]
      calc 2 * 256 = 512 * (1 * 1) := by norm_num
      _ ≤ (512 + (colR c1 + colR c2) / 2) *
          ((max (colR c1) (colR c2) - min (colR c1) (colR c2)) *
            (max (colR c1) (colR c2) - min (colR c1) (colR c2))) := by
        apply Nat.mul_le_mul (by omega)
        exact Nat.mul_le_mul hdr hdr
    omega

/-- The weighted distance of a colour to itself is zero. -/
theorem wdist_self (c : Nat) : wdist c c = 0 := by
  simp [wdist]

/-- Upper bound on the weighted distance: it is far below both loop-initial
bounds (`1e10` and `INT_MAX`). -/
theorem wdist_le (c1 c2 : Nat) : wdist c1 c2 ≤ 649740 := by
  unfold wdist
  have hr1 := colR_lt c1
  have hr2 := colR_lt c2
  have hg1 := colG_lt c1
  have hg2 := colG_lt c2
  have hb1 := colB_lt c1
  have hb2 := colB_lt c2
  have h1 : (512 + (colR c1 + colR c2) / 2) *
      ((max (colR c1) (colR c2) - min (colR c1) (colR c2)) *
        (max (colR c1) (colR c2) - min (colR c1) (colR c2))) / 256 ≤ 194820 := by
    have : (512 + (colR c1 + colR c2) / 2) *
        ((max (colR c1) (colR c2) - min (colR c1) (colR c2)) *
          (max (colR c1) (colR c2) - min (colR c1) (colR c2))) ≤ 767 * (255 * 255) := by
      apply Nat.mul_le_mul (by omega)
      apply Nat.mul_le_mul <;> omega
    calc _ ≤ 767 * (255 * 255) / 256 := Nat.div_le_div_right this
    _ ≤ 194820 := by norm_num
  have h2 : 4 * ((max (colG c1) (colG c2) - min (colG c1) (colG c2)) *
      (max (colG c1) (colG c2) - min (colG c1) (colG c2))) ≤ 260100 := by
    have : (max (colG c1) (colG c2) - min (colG c1) (colG c2)) *
        (max (colG c1) (colG c2) - min (colG c1) (colG c2)) ≤ 255 * 255 := by
      apply Nat.mul_le_mul <;> omega
    omega
  have h3 : (767 - (colR c1 + colR c2) / 2) *
      ((max (colB c1) (colB c2) - min (colB c1) (colB c2)) *
        (max (colB c1) (colB c2) - min (colB c1) (colB c2))) / 256 ≤ 194820 := by
    have : (767 - (colR c1 + colR c2) / 2) *
        ((max (colB c1) (colB c2) - min (colB c1) (colB c2)) *
          (max (colB c1) (colB c2) - min (colB c1) (colB c2))) ≤ 767 * (255 * 255) := by
      apply Nat.mul_le_mul (by omega)
      apply Nat.mul_le_mul <;> omega
    calc _ ≤ 767 * (255 * 255) / 256 := Nat.div_le_div_right this
    _ ≤ 194820 := by norm_num
  omega

/-! ### Nearest-colour loops (bmp.c:6866-6916 and bmp.c:6754-6787)

Both loops keep a best-so-far pair `(md, m)` and replace it whenever the
current distance is strictly smaller. -/

/-- The common argmin loop: `i` is the index of the head of the remaining
list, `acc = (md, m)` the best distance and index so far. -/
def nearestFold (color : Nat) : List Nat → Nat → Nat × Nat → Nat × Nat
  | [], _, acc => acc
  | c :: rest, i, acc =>
    if wdist color c < acc.1 then nearestFold color rest (i + 1) (wdist color c, i)
    else nearestFold color rest (i + 1) acc

/-- `bm_palette_nearest_index` (bmp.c:6866) under `RGB_BETTER_COMPARE`:
initial best distance `1e10`, initial index `m = 0`. -/
def bm_palette_nearest_index (pal : List Nat) (color : Nat) : Nat :=
  (nearestFold color pal 0 (10 ^ 10, 0)).2

/-- `bm_reduce_palette_nearest` (bmp.c:6754): every pixel is replaced by the
palette entry found by the same argmin loop (initial best `INT_MAX`,
initial index `dk = 0`), then stored via `bm_palette_get`. -/
def bm_reduce_palette_nearest (pixels pal : List Nat) : List Nat :=
  pixels.map fun p =>
    bm_palette_get pal (((nearestFold p pal 0 (2147483647, 0)).2 : Nat) : Int)

theorem nearestFold_append (color : Nat) (l1 l2 : List Nat) (i : Nat)
    (acc : Nat × Nat) :
    nearestFold color (l1 ++ l2) i acc =
      nearestFold color l2 (i + l1.length) (nearestFold color l1 i acc) := by
  induction l1 generalizing i acc with
  | nil => simp [nearestFold]
  | cons c rest ih =>
    simp only [List.cons_append, nearestFold, List.length_cons, List.append_eq]
    by_cases h : wdist color c < acc.1
    · rw [if_pos h, ih]
      congr 1
      · omega
      · rw [if_pos h]
    · rw [if_neg h, ih]
      congr 1
      · omega
      · rw [if_neg h]

theorem nearestFold_of_fst_zero (color : Nat) (l : List Nat) (i m : Nat) :
    nearestFold color l i (0, m) = (0, m) := by
  induction l generalizing i with
  | nil => rfl
  | cons c rest ih => simp [nearestFold, ih]

theorem nearestFold_fst_pos (color : Nat) (l : List Nat) (i : Nat)
    (acc : Nat × Nat) (hl : ∀ c ∈ l, 1 ≤ wdist color c) (hacc : 1 ≤ acc.1) :
    1 ≤ (nearestFold color l i acc).1 := by
  induction l generalizing i acc with
  | nil => exact hacc
  | cons c rest ih =>
    simp only [nearestFold]
    by_cases h : wdist color c < acc.1
    · rw [if_pos h]
      exact ih _ _ (fun x hx => hl x (List.mem_cons_of_mem _ hx))
        (hl c (List.mem_cons_self _ _))
    · rw [if_neg h]
      exact ih _ _ (fun x hx => hl x (List.mem_cons_of_mem _ hx)) hacc

theorem nearestFold_snd_bound (color : Nat) (l : List Nat) (i : Nat)
    (acc : Nat × Nat) :
    (nearestFold color l i acc).2 = acc.2 ∨
      (i ≤ (nearestFold color l i acc).2 ∧
        (nearestFold color l i acc).2 < i + l.length) := by
  induction l generalizing i acc with
  | nil => exact Or.inl rfl
  | cons c rest ih =>
    simp only [nearestFold, List.length_cons]
    by_cases h : wdist color c < acc.1
    · rw [if_pos h]
      rcases ih (i + 1) (wdist color c, i) with h1 | h1
      · exact Or.inr ⟨by omega, by rw [h1]; omega⟩
      · exact Or.inr ⟨by omega, by omega⟩
    · rw [if_neg h]
      rcases ih (i + 1) acc with h1 | h1
      · exact Or.inl h1
      · exact Or.inr ⟨by omega, by omega⟩

/-- C4 as stated is false: with two identical palette entries the argmin
loop keeps the first index, so looking up entry 1's own colour returns 0. -/
theorem nearest_index_duplicate_counterexample :
    bm_palette_nearest_index [0x123456, 0x123456]
      (bm_palette_get [0x123456, 0x123456] 1) = 0 := by
  decide

/-- C4 (amended): if no entry before index `i` has the same RGB bytes as
entry `i`, then `nearest_index(P, get(P, i)) = i`. -/
theorem nearest_index_of_palette_entry (pal : List Nat) (i : Nat)
    (hi : i < pal.length)
    (hd : ∀ j, j < i → rgbTriple (pal.getD j 0) ≠ rgbTriple (pal.getD i 0)) :
    bm_palette_nearest_index pal (bm_palette_get pal (i : Int)) = i := by
  have hget : bm_palette_get pal (i : Int) = pal.getD i 0 := by
    rw [bm_palette_get, if_neg]
    · simp
    · push_neg
      exact ⟨by positivity, by exact_mod_cast hi⟩
  rw [hget]
  unfold bm_palette_nearest_index
  have hsplit : pal = pal.take i ++ pal.getD i 0 :: pal.drop (i + 1) := by
    conv_lhs => rw [← List.take_append_drop i pal]
    rw [List.drop_eq_getElem_cons hi, List.getD_eq_getElem pal 0 hi]
  have hlen : (pal.take i).length = i := by
    rw [List.length_take]
    omega
  set col := pal.getD i 0 with hcol
  have hpos : 1 ≤ (nearestFold col (pal.take i) 0 (10 ^ 10, 0)).1 := by
    apply nearestFold_fst_pos
    · intro c hc
      rcases List.mem_iff_getElem.mp hc with ⟨k, hk, rfl⟩
      have hki : k < i := by
        rw [hlen] at hk
        exact hk
      rw [List.getElem_take]
      apply wdist_pos
      have h1 : pal[k] = pal.getD k 0 := (List.getD_eq_getElem pal 0 (by omega)).symm
      rw [h1, hcol]
      exact fun h => hd k hki h.symm
    · norm_num
  conv_lhs => rw [hsplit]
  rw [nearestFold_append, hlen]
  simp only [nearestFold]
  rw [wdist_self, if_pos (show 0 < _ from hpos), nearestFold_of_fst_zero]
  simp

/-- Witness for the amended C4 at a concrete palette. -/
theorem nearest_index_of_palette_entry_witness :
    bm_palette_nearest_index [0x010101, 0x020202]
      (bm_palette_get [0x010101, 0x020202] 1) = 1 :=
  nearest_index_of_palette_entry [0x010101, 0x020202] 1 (by decide)
    (by
      intro j hj
      have hj0 : j = 0 := by omega
      subst hj0
      decide)

/-- C6 as stated is false for the empty palette: the loop index `dk` stays 0
and `bm_palette_get` returns 0, which is not an entry of the palette. -/
theorem reduce_palette_nearest_empty_counterexample :
    ¬ ∀ q ∈ bm_reduce_palette_nearest [5] ([] : List Nat), q ∈ ([] : List Nat) := by
  decide

/-- C6 (amended): for a palette with at least one entry, after
`bm_reduce_palette_nearest` every pixel value is an entry of the palette. -/
theorem reduce_palette_nearest_mem (pixels pal : List Nat) (hne : pal ≠ []) :
    ∀ q ∈ bm_reduce_palette_nearest pixels pal, q ∈ pal := by
  intro q hq
  rcases List.mem_map.mp hq with ⟨p, _, rfl⟩
  obtain ⟨c, rest, rfl⟩ : ∃ c rest, pal = c :: rest := by
    cases pal with
    | nil => exact absurd rfl hne
    | cons c rest => exact ⟨c, rest, rfl⟩
  have hstep : nearestFold p (c :: rest) 0 (2147483647, 0) =
      nearestFold p rest 1 (wdist p c, 0) := by
    rw [nearestFold, if_pos]
    have := wdist_le p c
    omega
  have hdk : (nearestFold p (c :: rest) 0 (2147483647, 0)).2 <
      (c :: rest).length := by
    rw [hstep]
    rcases nearestFold_snd_bound p rest 1 (wdist p c, 0) with h | h
    · rw [h]
      simp
    · simp only [List.length_cons]
      omega
  set dk := (nearestFold p (c :: rest) 0 (2147483647, 0)).2 with hdef
  rw [bm_palette_get, if_neg]
  · rw [Int.toNat_ofNat, List.getD_eq_getElem _ 0 hdk]
    exact List.getElem_mem _
  · push_neg
    exact ⟨by positivity, by exact_mod_cast hdk⟩

/-- Witness for the amended C6 at a concrete bitmap and palette. -/
theorem reduce_palette_nearest_mem_witness :
    ([7] : List Nat) ≠ [] ∧ 7 ∈ [7] :=
  ⟨by decide, reduce_palette_nearest_mem [1] [7] (by decide) 7 (by decide)⟩

/-! ### GIF transparency (C7, bmp.c:2532-2546)

The plotting loop of `gif_read_tbid` looks up the decoded index `c` in the
palette and writes the colour with the alpha byte cleared or forced to 0xFF.
The transparency test in the source is `trans_flag && col ==
gce->trans_index`: it compares the looked-up COLOUR with the transparent
INDEX. -/

/-- Colour written to the canvas for one decoded pixel index `c`
(bmp.c:2532-2546); `none` is the `"invalid color value"` error path. -/
def gif_tbid_pixel (trans_flag : Bool) (trans_index : Nat) (pal : List Nat)
    (c : Nat) : Option Nat :=
  if (c : Int) < bm_palette_count pal then
    some (if trans_flag ∧ bm_palette_get pal (c : Int) = trans_index then
        bm_palette_get pal (c : Int) &&& 0xFFFFFF
      else bm_palette_get pal (c : Int) ||| 0xFF000000)
  else none

/-- Modelled from the spec (C7): `pixels equal to trans_index` — i.e. the
decoded palette INDEX equals `trans_index` — get alpha `0x00`, all others
alpha `0xFF`. -/
def gif_tbid_pixel_claimed (trans_flag : Bool) (trans_index : Nat)
    (pal : List Nat) (c : Nat) : Option Nat :=
  if (c : Int) < bm_palette_count pal then
    some (if trans_flag ∧ c = trans_index then
        bm_palette_get pal (c : Int) &&& 0xFFFFFF
      else bm_palette_get pal (c : Int) ||| 0xFF000000)
  else none

/-- C7: the code diverges from the claim.  With the transparent flag set,
`trans_index = 0`, palette entry 0 = red `0x00FF0000` and decoded index 0,
the code writes alpha `0xFF` (it compared the colour `0xFF0000` with the
index 0), while the claim requires alpha `0x00`. -/
theorem gif_transparency_code_vs_claim :
    gif_tbid_pixel true 0 [0xFF0000] 0 = some 0xFFFF0000 ∧
    gif_tbid_pixel_claimed true 0 [0xFF0000] 0 = some 0x00FF0000 ∧
    0xFFFF0000 / 2 ^ 24 = 0xFF ∧ 0x00FF0000 / 2 ^ 24 = 0x00 := by
  decide

/-! ### GIF interlacing (C8, bmp.c:2511-2530)

The decoder's interlace state is `(grp, inty, inti)`, starting `(1, 0, 8)`.
Each delivered row goes to canvas row `truey = inty`; then `inty += inti`,
and when `inty >= height` the `switch(++grp)` installs the next pass's
start and stride.  The loop runs once per image row (`y = 0 .. height-1`). -/

def gifInterlaceGo (height : Nat) : Nat → Nat × Nat × Nat → List Nat
  | 0, _ => []
  | n + 1, (grp, inty, inti) =>
    inty ::
      (if height ≤ inty + inti then
        match grp + 1 with
        | 2 => gifInterlaceGo height n (2, 4, 8)
        | 3 => gifInterlaceGo height n (3, 2, 4)
        | 4 => gifInterlaceGo height n (4, 1, 2)
        | g => gifInterlaceGo height n (g, inty + inti, inti)
      else gifInterlaceGo height n (grp, inty + inti, inti))

/-- Canvas rows (with `top = 0`) to which the decoder assigns the
consecutive decoded rows of an interlaced image of the given height. -/
def gifInterlaceRows (height : Nat) : List Nat :=
  gifInterlaceGo height height (1, 0, 8)

/-- Modelled from the spec (C8): the four interlace passes by row-modulo —
rows 0,8,16,…, then 4,12,20,…, then 2,6,10,…, then 1,3,5,…, each pass
covering exactly the rows of that residue class below the height. -/
def interlaceRowsClaimed (height : Nat) : List Nat :=
  (List.range height).filter (fun r => r % 8 = 0) ++
    (List.range height).filter (fun r => r % 8 = 4) ++
    (List.range height).filter (fun r => r % 4 = 2) ++
    (List.range height).filter (fun r => r % 2 = 1)

/-- C8: the code diverges from the claim.  For an interlaced image of
height 4 the code assigns decoded rows to canvas rows 0,4,2,1 — writing a
row 4 that is outside the image (the code's own `assert(truey < h)` fails)
and never writing row 3 — while the claim requires 0,2,1,3.  Height 2
similarly yields 0,4 instead of 0,1. -/
theorem gif_interlace_code_vs_claim :
    gifInterlaceRows 4 = [0, 4, 2, 1] ∧
    interlaceRowsClaimed 4 = [0, 2, 1, 3] ∧
    gifInterlaceRows 2 = [0, 4] ∧
    interlaceRowsClaimed 2 = [0, 1] := by
  decide

/-! ### PCX row RLE encoding (C9, bmp.c:3210-3243)

`bm_save_pcx` walks each row with `x`; for each position it counts a run
`cnt` of equal pixels (capped at 63), looks up the palette index of the run
colour, and emits either one literal byte or a `0xC0|cnt` marker plus the
index byte (both through `put_byte`, i.e. truncated to 8 bits).  After the
row it pads with zero bytes while `x < bytes_per_line`, where
`bytes_per_line` is the width rounded up to an even number.  The palette
index lookup (`get_palette_mapping` over the sorted mapping built by
`make_palette_mapping`) is passed in abstractly as `idx`. -/

/-- `bytes_per_line` of the written PCX header (bmp.c:3189-3191). -/
def pcx_bytes_per_line (w : Nat) : Nat :=
  if w % 2 = 1 then w + 1 else w

/-- Inner run loop (bmp.c:3215-3221): with current colour `c` and count
`cnt`, consume equal pixels while `cnt < 63`; returns the final count and
the unconsumed rest of the row. -/
def pcxRun (c : Nat) : Nat → List Nat → Nat × List Nat
  | cnt, [] => (cnt, [])
  | cnt, n :: rest =>
    if cnt < 63 then
      if c = n then pcxRun c (cnt + 1) rest else (cnt, n :: rest)
    else (cnt, n :: rest)

theorem pcxRun_snd_length (c : Nat) :
    ∀ cnt l, (pcxRun c cnt l).2.length ≤ l.length := by
  intro cnt l
  induction l generalizing cnt with
  | nil => simp [pcxRun]
  | cons n rest ih =>
    simp only [pcxRun]
    by_cases h1 : cnt < 63
    · rw [if_pos h1]
      by_cases h2 : c = n
      · rw [if_pos h2]
        exact le_trans (ih (cnt + 1)) (by simp)
      · rw [if_neg h2]
    · rw [if_neg h1]

/-- The per-row emission loop of `bm_save_pcx` (bmp.c:3210-3238), without
the trailing padding. -/
def pcxRowGo (idx : Nat → Nat) : List Nat → List Nat
  | [] => []
  | c :: rest =>
    (if (pcxRun c 1 rest).1 = 1 ∧ idx c < 192 then [idx c % 256]
      else [(0xC0 ||| (pcxRun c 1 rest).1) % 256, idx c % 256]) ++
      pcxRowGo idx (pcxRun c 1 rest).2
termination_by l => l.length
decreasing_by
  have := pcxRun_snd_length c 1 rest
  simp only [List.length_cons]
  omega

/-- One row of `bm_save_pcx` output: the RLE-encoded pixels followed by the
zero padding emitted while `x < bytes_per_line` (bmp.c:3239-3242). -/
def bm_save_pcx_row (idx : Nat → Nat) (row : List Nat) : List Nat :=
  pcxRowGo idx row ++
    List.replicate (pcx_bytes_per_line row.length - row.length) 0

/-- Modelled from the spec (C9): run-length encode over runs of identical
pixels of length at most 63 (the run is the longest prefix of equal pixels,
capped at 63); a run of length 1 whose index is below 192 becomes a single
literal index byte, every other run becomes `0xC0|run` followed by the
index byte. -/
def pcxRowClaimed (idx : Nat → Nat) : List Nat → List Nat
  | [] => []
  | c :: rest =>
    (if min 63 (1 + (rest.takeWhile (fun n => n = c)).length) = 1 ∧ idx c < 192 then
        [idx c % 256]
      else [(0xC0 ||| min 63 (1 + (rest.takeWhile (fun n => n = c)).length)) % 256,
        idx c % 256]) ++
      pcxRowClaimed idx (rest.drop (min 63 (1 + (rest.takeWhile (fun n => n = c)).length) - 1))
termination_by l => l.length
decreasing_by
  simp only [List.length_cons]
  have := List.length_drop (min 63 (1 + (rest.takeWhile (fun n => n = c)).length) - 1) rest
  omega

/-- Modelled from the spec (C9): a full row is the RLE encoding padded to
`bytes_per_line` with zero bytes. -/
def bm_save_pcx_rowClaimed (idx : Nat → Nat) (row : List Nat) : List Nat :=
  pcxRowClaimed idx row ++
    List.replicate (pcx_bytes_per_line row.length - row.length) 0

/-- The run loop computes exactly the 63-capped longest prefix of equal
pixels, and leaves the corresponding suffix. -/
theorem pcxRun_eq (c : Nat) :
    ∀ l cnt, cnt ≤ 63 →
      pcxRun c cnt l = (min 63 (cnt + (l.takeWhile (fun n => n = c)).length),
        l.drop (min 63 (cnt + (l.takeWhile (fun n => n = c)).length) - cnt)) := by
  intro l
  induction l with
  | nil =>
    intro cnt hcnt
    simp [pcxRun, Nat.min_eq_right hcnt]
  | cons n rest ih =>
    intro cnt hcnt
    simp only [pcxRun]
    by_cases h1 : cnt < 63
    · rw [if_pos h1]
      by_cases h2 : c = n
      · rw [if_pos h2, ih (cnt + 1) (by omega)]
        have htw : (n :: rest).takeWhile (fun m => m = c) =
            n :: rest.takeWhile (fun m => m = c) := by
          rw [List.takeWhile_cons, if_pos (by simp [h2])]
        rw [htw]
        simp only [List.length_cons]
        have hmin : min 63 (cnt + 1 + (rest.takeWhile (fun m => m = c)).length) =
            min 63 (cnt + ((rest.takeWhile (fun m => m = c)).length + 1)) := by
          omega
        rw [hmin]
        have hge : cnt + 1 ≤ min 63 (cnt + ((rest.takeWhile (fun m => m = c)).length + 1)) := by
          omega
        have hdrop : (n :: rest).drop
            (min 63 (cnt + ((rest.takeWhile (fun m => m = c)).length + 1)) - cnt) =
            rest.drop
              (min 63 (cnt + ((rest.takeWhile (fun m => m = c)).length + 1)) - (cnt + 1)) := by
          have h3 : min 63 (cnt + ((rest.takeWhile (fun m => m = c)).length + 1)) - cnt =
              (min 63 (cnt + ((rest.takeWhile (fun m => m = c)).length + 1)) - (cnt + 1)) + 1 := by
            omega
          rw [h3, List.drop_succ_cons]
        rw [hdrop]
      · rw [if_neg h2]
        have htw : (n :: rest).takeWhile (fun m => m = c) = [] := by
          rw [List.takeWhile_cons, if_neg (by simp; exact fun h => h2 h.symm)]
        rw [htw]
        simp [Nat.min_eq_right hcnt]
    · rw [if_neg h1]
      have hc63 : cnt = 63 := by omega
      subst hc63
      simp

/-- C9: the row emission loop of `bm_save_pcx` produces exactly the
encoding the spec describes, for every row content and index mapping. -/
theorem pcx_row_encoding (idx : Nat → Nat) (row : List Nat) :
    bm_save_pcx_row idx row = bm_save_pcx_rowClaimed idx row := by
  unfold bm_save_pcx_row bm_save_pcx_rowClaimed
  congr 1
  have main : ∀ n row, row.length ≤ n → pcxRowGo idx row = pcxRowClaimed idx row := by
    intro n
    induction n with
    | zero =>
      intro row hrow
      have : row = [] := List.length_eq_zero.mp (by omega)
      subst this
      rw [pcxRowGo, pcxRowClaimed]
    | succ n ih =>
      intro row hrow
      match row with
      | [] => rw [pcxRowGo, pcxRowClaimed]
      | c :: rest =>
        rw [pcxRowGo, pcxRowClaimed, pcxRun_eq c rest 1 (by omega)]
        have hrec : pcxRowGo idx
            (rest.drop (min 63 (1 + (rest.takeWhile (fun m => m = c)).length) - 1)) =
            pcxRowClaimed idx
              (rest.drop (min 63 (1 + (rest.takeWhile (fun m => m = c)).length) - 1)) := by
          apply ih
          have := List.length_drop
            (min 63 (1 + (rest.takeWhile (fun m => m = c)).length) - 1) rest
          simp only [List.length_cons] at hrow
          omega
        rw [hrec]
  exact main row.length row (le_refl _)

/-! ### Palette construction (C5, bmp.c:6923-6973 and bmp.c:7386-7410)

`count_colors_build_palette` copies the pixels, `qsort`s them with
`cnt_comp_noalpha` (which orders by the 24-bit value `pixel & 0x00FFFFFF`)
and collapses equal consecutive 24-bit values, failing with `-1` when a
257th distinct value appears.  `qsort` returns an unspecified key-sorted
permutation; every fact proved below depends only on the key sequence of
the sorted array, which is the same for all such permutations, so we fix
`List.mergeSort` as the witness permutation.  `bm_make_palette` uses the
collapsed colours, or `bm_quantize_uniform(b, 256)` when there are more
than 256 distinct colours. -/

/-- The 24-bit value `pixel & 0x00FFFFFF` used by `cnt_comp_noalpha`. -/
def pixelKey (c : Nat) : Nat := c % 2 ^ 24

/-- The pixel array after `qsort(..., cnt_comp_noalpha)`. -/
def sortedPixels (pixels : List Nat) : List Nat :=
  pixels.mergeSort (fun a b => decide (pixelKey a ≤ pixelKey b))

/-- The collapse loop of `count_colors_build_palette` (bmp.c:6941-6949):
`prev` is the 24-bit value of the previous sorted pixel, `acc` the colours
collected so far; a new value is appended when it differs from `prev`,
unless 256 colours were already collected (the `-1` case, here `none`). -/
def collapseGo : Nat → List Nat → List Nat → Option (List Nat)
  | _, acc, [] => some acc
  | prev, acc, p :: rest =>
    if pixelKey p ≠ prev then
      (if acc.length = 256 then none
        else collapseGo (pixelKey p) (acc ++ [pixelKey p]) rest)
    else collapseGo prev acc rest

/-- `count_colors_build_palette` (bmp.c:6933): sort, seed the output with
the first 24-bit value, then collapse.  (For a valid bitmap the pixel list
is non-empty; the `[]` case is vacuous.) -/
def count_colors_build_palette (pixels : List Nat) : Option (List Nat) :=
  match sortedPixels pixels with
  | [] => some []
  | p :: rest => collapseGo (pixelKey p) [pixelKey p] rest

/-- `bm_quantize_uniform` (bmp.c:7386): `K` evenly spaced samples of the
sorted pixel array (full 32-bit values). -/
def bm_quantize_uniform (pixels : List Nat) (K : Nat) : List Nat :=
  List.ofFn fun i : Fin K =>
    (sortedPixels pixels).getD (i * (pixels.length - 1) / (K - 1)) 0

/-- `bm_make_palette` (bmp.c:6954): the collapsed distinct colours, or a
uniform 256-colour quantization when there are more than 256. -/
def bm_make_palette (pixels : List Nat) : List Nat :=
  match count_colors_build_palette pixels with
  | some colors => colors
  | none => bm_quantize_uniform pixels 256

/-- The sequence of distinct 24-bit values the collapse appends after
seeing `prev`. -/
def distinctKeys : Nat → List Nat → List Nat
  | _, [] => []
  | prev, p :: rest =>
    if pixelKey p ≠ prev then pixelKey p :: distinctKeys (pixelKey p) rest
    else distinctKeys prev rest

theorem collapseGo_eq (l : List Nat) :
    ∀ prev acc, acc.length ≤ 256 →
      collapseGo prev acc l =
        if acc.length + (distinctKeys prev l).length ≤ 256 then
          some (acc ++ distinctKeys prev l)
        else none := by
  induction l with
  | nil =>
    intro prev acc hacc
    simp [collapseGo, distinctKeys, hacc]
  | cons p rest ih =>
    intro prev acc hacc
    simp only [collapseGo, distinctKeys]
    by_cases h : pixelKey p ≠ prev
    · rw [if_pos h, if_pos h]
      by_cases h256 : acc.length = 256
      · rw [if_pos h256,
          if_neg (by simp only [List.length_cons]; omega :
            ¬acc.length + (pixelKey p :: distinctKeys (pixelKey p) rest).length ≤ 256)]
      · rw [if_neg h256, ih (pixelKey p) (acc ++ [pixelKey p]) (by simp; omega)]
        simp only [List.length_append, List.length_singleton, List.length_cons,
          List.length_nil]
        by_cases hc : acc.length + (distinctKeys (pixelKey p) rest).length + 1 ≤ 256
        · rw [if_pos (by omega), if_pos (by omega)]
          simp
        · rw [if_neg (by omega), if_neg (by omega)]
    · rw [if_neg h, if_neg h, ih prev acc hacc]

theorem distinctKeys_mem (x : Nat) :
    ∀ (l : List Nat) (prev : Nat),
      (x ∈ prev :: distinctKeys prev l ↔ x = prev ∨ x ∈ l.map pixelKey) := by
  intro l
  induction l with
  | nil => simp [distinctKeys]
  | cons p rest ih =>
    intro prev
    simp only [distinctKeys]
    by_cases h : pixelKey p ≠ prev
    · rw [if_pos h]
      constructor
      · intro hx
        rcases List.mem_cons.mp hx with h1 | h1
        · exact Or.inl h1
        · rcases (ih (pixelKey p)).mp h1 with h2 | h2
          · exact Or.inr (by simp [h2])
          · simp only [List.map_cons, List.mem_cons]
            exact Or.inr (Or.inr h2)
      · intro hx
        rcases hx with h1 | h1
        · simp [h1]
        · simp only [List.map_cons, List.mem_cons] at h1
          rcases h1 with h2 | h2
          · exact List.mem_cons_of_mem _ ((ih (pixelKey p)).mpr (Or.inl h2))
          · exact List.mem_cons_of_mem _ ((ih (pixelKey p)).mpr (Or.inr h2))
    · rw [if_neg h]
      push_neg at h
      rw [ih prev]
      simp only [List.map_cons, List.mem_cons, h]
      tauto

theorem distinctKeys_chain :
    ∀ (l : List Nat) (prev : Nat),
      List.Chain (· ≤ ·) prev (l.map pixelKey) →
      List.Chain' (· < ·) (prev :: distinctKeys prev l) := by
  intro l
  induction l with
  | nil =>
    intro prev _
    simp [distinctKeys]
  | cons p rest ih =>
    intro prev hch
    simp only [List.map_cons, List.chain_cons] at hch
    simp only [distinctKeys]
    by_cases h : pixelKey p ≠ prev
    · rw [if_pos h]
      have h1 : prev < pixelKey p := lt_of_le_of_ne hch.1 (Ne.symm h)
      have h2 := ih (pixelKey p) hch.2
      exact List.Chain'.cons h1 h2
    · rw [if_neg h]
      push_neg at h
      apply ih prev
      rw [← h]
      exact hch.2

/-- C5: after `bm_make_palette`, the palette consists exactly of the
distinct 24-bit colours of the bitmap when there are at most 256 of them
(no duplicates, and an entry for each occurring 24-bit value), and has
exactly 256 entries otherwise. -/
theorem bm_make_palette_spec (pixels : List Nat) (hne : pixels ≠ []) :
    ((pixels.map pixelKey).toFinset.card ≤ 256 →
      (bm_make_palette pixels).Nodup ∧
      ∀ x, x ∈ bm_make_palette pixels ↔ x ∈ pixels.map pixelKey) ∧
    (256 < (pixels.map pixelKey).toFinset.card →
      (bm_make_palette pixels).length = 256) := by
  have htrans : ∀ a b c : Nat, decide (pixelKey a ≤ pixelKey b) = true →
      decide (pixelKey b ≤ pixelKey c) = true →
      decide (pixelKey a ≤ pixelKey c) = true := by
    intro a b c h1 h2
    simp only [decide_eq_true_eq] at h1 h2 ⊢
    omega
  have htotal : ∀ a b : Nat,
      (decide (pixelKey a ≤ pixelKey b) || decide (pixelKey b ≤ pixelKey a)) = true := by
    intro a b
    simp only [Bool.or_eq_true, decide_eq_true_eq]
    omega
  have hperm : (sortedPixels pixels).Perm pixels := List.mergeSort_perm pixels _
  have hsorted : (sortedPixels pixels).Pairwise (fun a b => pixelKey a ≤ pixelKey b) := by
    have h := List.sorted_mergeSort htrans htotal pixels
    exact h.imp fun hab => by simpa using hab
  have hne' : sortedPixels pixels ≠ [] := by
    intro h
    rw [← List.length_eq_zero] at h
    rw [hperm.length_eq] at h
    exact hne (List.length_eq_zero.mp h)
  obtain ⟨p, rest, hs⟩ : ∃ p rest, sortedPixels pixels = p :: rest := by
    cases hh : sortedPixels pixels with
    | nil => exact absurd hh hne'
    | cons p rest => exact ⟨p, rest, rfl⟩
  haveI : IsTrans Nat (fun a b => pixelKey a ≤ pixelKey b) :=
    ⟨fun _ _ _ h1 h2 => le_trans h1 h2⟩
  have hchain : List.Chain (· ≤ ·) (pixelKey p) (rest.map pixelKey) := by
    rw [List.chain_map]
    exact List.chain_iff_pairwise.mpr (hs ▸ hsorted)
  have hchainL := distinctKeys_chain rest (pixelKey p) hchain
  have hnodup : (pixelKey p :: distinctKeys (pixelKey p) rest).Nodup := by
    have hpw : (pixelKey p :: distinctKeys (pixelKey p) rest).Pairwise (· < ·) :=
      List.chain'_iff_pairwise.mp hchainL
    exact hpw.imp Nat.ne_of_lt
  have hmem : ∀ x, x ∈ pixelKey p :: distinctKeys (pixelKey p) rest ↔
      x ∈ pixels.map pixelKey := by
    intro x
    rw [distinctKeys_mem x rest (pixelKey p)]
    have h1 : x ∈ pixels.map pixelKey ↔ x ∈ (sortedPixels pixels).map pixelKey :=
      ((hperm.map pixelKey).mem_iff).symm
    rw [h1, hs]
    simp
  have hcard : (pixelKey p :: distinctKeys (pixelKey p) rest).length =
      (pixels.map pixelKey).toFinset.card := by
    rw [← List.toFinset_card_of_nodup hnodup]
    congr 1
    apply Finset.ext
    intro x
    rw [List.mem_toFinset, List.mem_toFinset]
    exact hmem x
  have hcollapse : count_colors_build_palette pixels =
      if (pixelKey p :: distinctKeys (pixelKey p) rest).length ≤ 256 then
        some (pixelKey p :: distinctKeys (pixelKey p) rest)
      else none := by
    unfold count_colors_build_palette
    rw [hs]
    show collapseGo (pixelKey p) [pixelKey p] rest = _
    rw [collapseGo_eq rest (pixelKey p) [pixelKey p] (by simp)]
    simp only [List.singleton_append, List.length_singleton, List.length_cons,
      List.length_nil]
    by_cases hc : (distinctKeys (pixelKey p) rest).length + 1 ≤ 256
    · rw [if_pos (by omega), if_pos (by omega)]
    · rw [if_neg (by omega), if_neg (by omega)]
  constructor
  · intro hD
    have hlen : (pixelKey p :: distinctKeys (pixelKey p) rest).length ≤ 256 := by
      rw [hcard]
      exact hD
    have hmp : bm_make_palette pixels = pixelKey p :: distinctKeys (pixelKey p) rest := by
      unfold bm_make_palette
      rw [hcollapse, if_pos hlen]
    rw [hmp]
    exact ⟨hnodup, hmem⟩
  · intro hD
    have hlen : ¬(pixelKey p :: distinctKeys (pixelKey p) rest).length ≤ 256 := by
      rw [hcard]
      omega
    have hmp : bm_make_palette pixels = bm_quantize_uniform pixels 256 := by
      unfold bm_make_palette
      rw [hcollapse, if_neg hlen]
    rw [hmp]
    unfold bm_quantize_uniform
    exact List.length_ofFn _

/-- Witness for C5: a two-pixel bitmap whose pixels share one 24-bit colour
(they differ only in alpha) yields the one-entry palette `[5]`. -/
theorem bm_make_palette_spec_witness :
    (bm_make_palette [5, 16777221]).Nodup ∧
    ∀ x, x ∈ bm_make_palette [5, 16777221] ↔ x ∈ [5, 16777221].map pixelKey :=
  (bm_make_palette_spec [5, 16777221] (by decide)).1 (by decide)

/-! ### BMP codec (C2, bmp.c:1100-1163 `bm_save_bmp` and bmp.c:738-948
`bm_load_bmp_rd`)

Byte streams are `List Nat` (one entry per byte).  The C code `fwrite`s and
`fread`s little-endian packed structs (`#pragma pack(1)`), so a `uint16_t`
or `uint32_t` field is its little-endian byte sequence at the struct
offset: magic at 0, `bmpfile_header` at 2 (filesz 2, creator1 6, creator2
8, bmp_offset 10), `bmpfile_dibinfo` at 14 (header_sz 14, width 18,
height 22, nplanes 26, bitspp 28, compress_type 30, bmp_bytesz 34, hres
38, vres 42, ncolors 46, nimpcolors 50), pixel data at `bmp_offset`. -/

/-- Little-endian bytes of a `uint16_t`. -/
def le16 (v : Nat) : List Nat := [v % 256, v / 256 % 256]

/-- Little-endian bytes of a `uint32_t` (or nonnegative `int32_t`). -/
def le32 (v : Nat) : List Nat :=
  [v % 256, v / 256 % 256, v / 2 ^ 16 % 256, v / 2 ^ 24 % 256]

/-- One byte read from the stream (unread positions default to 0; the
loader checks lengths before every use, mirroring `fread`'s short-read
error returns). -/
def rdByte (bs : List Nat) (off : Nat) : Nat := bs.getD off 0

/-- Little-endian `uint16_t` at `off`. -/
def rdU16 (bs : List Nat) (off : Nat) : Nat :=
  rdByte bs off + 256 * rdByte bs (off + 1)

/-- Little-endian `uint32_t` at `off`. -/
def rdU32 (bs : List Nat) (off : Nat) : Nat :=
  rdByte bs off + 256 * rdByte bs (off + 1) + 2 ^ 16 * rdByte bs (off + 2) +
    2 ^ 24 * rdByte bs (off + 3)

/-- Little-endian `int32_t` at `off` (two's complement). -/
def rdI32 (bs : List Nat) (off : Nat) : Int :=
  if 2 ^ 31 ≤ rdU32 bs off then (rdU32 bs off : Int) - 2 ^ 32
  else (rdU32 bs off : Int)

/-- Row padding of `bm_save_bmp` (bmp.c:1113-1114). -/
def bmpPad (w : Nat) : Nat :=
  if 3 < 4 - w * 3 % 4 then 0 else 4 - w * 3 % 4

/-- Row size `rs = w*3 + padding` of `bm_save_bmp` (bmp.c:1115). -/
def bmpRowSize (w : Nat) : Nat := w * 3 + bmpPad w

/-- One row of the pixel-data array built at bmp.c:1150-1157: for each
pixel the bytes `B, G, R` at `p+0, p+1, p+2`, then the zero padding left by
the `memset` (bmp.c:1148). -/
def bmpRowBytes (b : Bitmap) (j : Nat) : List Nat :=
  (List.range b.w).flatMap (fun i =>
    [colB (bm_get b i j), colG (bm_get b i j), colR (bm_get b i j)]) ++
    List.replicate (bmpPad b.w) 0

/-- The full pixel-data array: file row `y` holds source row `j = h-1-y`
(`p = (h-j-1)*rs + i*3`, bmp.c:1152), i.e. the source rows appear in
reverse order. -/
def bmpPixelData (b : Bitmap) : List Nat :=
  (List.range b.h).reverse.flatMap (fun j => bmpRowBytes b j)

/-- The 54 header bytes written by `bm_save_bmp` (bmp.c:1106-1141): magic
`"BM"`, `bmpfile_header` (file size, two zero creator fields, pixel offset
54), `bmpfile_dibinfo` (size 40, dimensions, 1 plane, 24 bpp, `BI_RGB`,
data size `rs*h`, 2835 pixels/metre, no palette). -/
def bmpHeader (b : Bitmap) : List Nat :=
  [66, 77] ++ le32 (54 + bmpRowSize b.w * b.h) ++ le16 0 ++ le16 0 ++ le32 54 ++
    le32 40 ++ le32 b.w ++ le32 b.h ++ le16 1 ++ le16 24 ++ le32 0 ++
    le32 (bmpRowSize b.w * b.h) ++ le32 2835 ++ le32 2835 ++ le32 0 ++ le32 0

/-- `bm_save_bmp` (bmp.c:1100-1163): the header followed by the bottom-up
24-bit pixel data. -/
def bm_save_bmp (b : Bitmap) : List Nat :=
  bmpHeader b ++ bmpPixelData b

theorem le16_length (v : Nat) : (le16 v).length = 2 := rfl

theorem le32_length (v : Nat) : (le32 v).length = 4 := rfl

/-- Reading back a 32-bit field at its struct offset. -/
theorem rdU32_append (pre suf : List Nat) (v : Nat) (hv : v < 2 ^ 32) :
    rdU32 (pre ++ (le32 v ++ suf)) pre.length = v := by
  have h0 : ∀ k, rdByte (pre ++ (le32 v ++ suf)) (pre.length + k) =
      rdByte (le32 v ++ suf) k := by
    intro k
    unfold rdByte
    rw [List.getD_append_right _ _ _ _ (by omega)]
    congr 1
    omega
  unfold rdU32
  have e0 : pre.length + 0 = pre.length := by omega
  rw [← e0, h0 0, show pre.length + 0 + 1 = pre.length + 1 by omega, h0 1,
    show pre.length + 1 + 1 = pre.length + 2 by omega, h0 2,
    show pre.length + 2 + 1 = pre.length + 3 by omega, h0 3]
  show v % 256 + 256 * (v / 256 % 256) + 2 ^ 16 * (v / 2 ^ 16 % 256) +
      2 ^ 24 * (v / 2 ^ 24 % 256) = v
  omega

/-- Reading back a 16-bit field at its struct offset. -/
theorem rdU16_append (pre suf : List Nat) (v : Nat) (hv : v < 2 ^ 16) :
    rdU16 (pre ++ (le16 v ++ suf)) pre.length = v := by
  have h0 : ∀ k, rdByte (pre ++ (le16 v ++ suf)) (pre.length + k) =
      rdByte (le16 v ++ suf) k := by
    intro k
    unfold rdByte
    rw [List.getD_append_right _ _ _ _ (by omega)]
    congr 1
    omega
  unfold rdU16
  have e0 : pre.length + 0 = pre.length := by omega
  rw [← e0, h0 0, show pre.length + 0 + 1 = pre.length + 1 by omega, h0 1]
  show v % 256 + 256 * (v / 256 % 256) = v
  omega

/-- Indexing into a concatenation of equal-length blocks. -/
theorem flatMap_uniform_getD (f : Nat → List Nat) (rs : Nat) :
    ∀ (ys : List Nat) (k r : Nat), (∀ x ∈ ys, (f x).length = rs) →
      k < ys.length → r < rs →
      (ys.flatMap f).getD (k * rs + r) 0 = (f (ys.getD k 0)).getD r 0 := by
  intro ys
  induction ys with
  | nil =>
    intro k r _ hk _
    simp at hk
  | cons y ys ih =>
    intro k r hlen hk hr
    rw [List.flatMap_cons]
    match k with
    | 0 =>
      rw [List.getD_append _ _ _ _ (by
        rw [hlen y (List.mem_cons_self _ _)]
        omega)]
      simp
    | k + 1 =>
      rw [List.getD_append_right _ _ _ _ (by
        rw [hlen y (List.mem_cons_self _ _)]
        have : rs ≤ (k + 1) * rs := by
          calc rs = 1 * rs := (one_mul rs).symm
          _ ≤ (k + 1) * rs := Nat.mul_le_mul_right rs (by omega)
        omega)]
      rw [hlen y (List.mem_cons_self _ _)]
      have harith : (k + 1) * rs + r - rs = k * rs + r := by
        have : (k + 1) * rs = k * rs + rs := by ring
        omega
      rw [harith, ih k r (fun x hx => hlen x (List.mem_cons_of_mem _ hx))
        (by simp at hk; omega) hr]
      simp

theorem sum_map_const_three (l : List Nat) :
    (l.map (fun _ => 3)).sum = 3 * l.length := by
  induction l with
  | nil => simp
  | cons x l ih =>
    simp only [List.map_cons, List.sum_cons, List.length_cons, ih]
    ring

theorem bmpRowBytes_length (b : Bitmap) (j : Nat) :
    (bmpRowBytes b j).length = bmpRowSize b.w := by
  unfold bmpRowBytes bmpRowSize
  rw [List.length_append, List.length_replicate, List.length_flatMap]
  have h1 : List.map (List.length ∘ fun i =>
      [colB (bm_get b i j), colG (bm_get b i j), colR (bm_get b i j)])
      (List.range b.w) = List.map (fun _ => 3) (List.range b.w) := by
    apply List.map_congr_left
    intro i _
    rfl
  rw [h1, sum_map_const_three, List.length_range]
  ring_nf

theorem bmpPixelData_length (b : Bitmap) :
    (bmpPixelData b).length = bmpRowSize b.w * b.h := by
  unfold bmpPixelData
  rw [List.length_flatMap]
  have h1 : List.map (List.length ∘ fun j => bmpRowBytes b j)
      ((List.range b.h).reverse) =
      List.map (fun _ => bmpRowSize b.w) ((List.range b.h).reverse) := by
    apply List.map_congr_left
    intro j _
    exact bmpRowBytes_length b j
  rw [h1]
  have h2 : ∀ (l : List Nat), (l.map (fun _ => bmpRowSize b.w)).sum =
      bmpRowSize b.w * l.length := by
    intro l
    induction l with
    | nil => simp
    | cons x l ih =>
      simp only [List.map_cons, List.sum_cons, List.length_cons, ih]
      ring
  rw [h2, List.length_reverse, List.length_range]

/-- The row size written by the saver equals the one recomputed by the
loader (bmp.c:849). -/
theorem bmpRowSize_eq_load (w : Nat) :
    bmpRowSize w = (w * 24 / 8 + 3) / 4 * 4 := by
  unfold bmpRowSize bmpPad
  have h24 : w * 24 / 8 = w * 3 := by omega
  rw [h24]
  by_cases h : 3 < 4 - w * 3 % 4
  · rw [if_pos h]
    omega
  · rw [if_neg h]
    omega

theorem range_reverse_getD (h k : Nat) (hk : k < h) :
    ((List.range h).reverse).getD k 0 = h - 1 - k := by
  rw [List.getD_eq_getElem _ _ (by
    rw [List.length_reverse, List.length_range]
    exact hk)]
  rw [List.getElem_reverse]
  rw [List.getElem_range]
  rw [List.length_range]

theorem bmpRowBytes_getD (b : Bitmap) (j i t : Nat) (hi : i < b.w) (ht : t < 3) :
    (bmpRowBytes b j).getD (i * 3 + t) 0 =
      [colB (bm_get b i j), colG (bm_get b i j), colR (bm_get b i j)].getD t 0 := by
  unfold bmpRowBytes
  have hlen : ((List.range b.w).flatMap (fun i =>
      [colB (bm_get b i j), colG (bm_get b i j), colR (bm_get b i j)])).length =
      3 * b.w := by
    rw [List.length_flatMap]
    have h1 : List.map (List.length ∘ fun i =>
        [colB (bm_get b i j), colG (bm_get b i j), colR (bm_get b i j)])
        (List.range b.w) = List.map (fun _ => 3) (List.range b.w) := by
      apply List.map_congr_left
      intro i _
      rfl
    rw [h1, sum_map_const_three, List.length_range]
  rw [List.getD_append _ _ _ _ (by rw [hlen]; omega)]
  rw [flatMap_uniform_getD _ 3 (List.range b.w) i t
    (by intro x _; rfl) (by rw [List.length_range]; exact hi) ht]
  have hrange : (List.range b.w).getD i 0 = i := by
    rw [List.getD_eq_getElem _ _ (by rw [List.length_range]; exact hi)]
    exact List.getElem_range i _
  rw [hrange]

theorem bmpPixelData_getD (b : Bitmap) (i j t : Nat) (hi : i < b.w)
    (hj : j < b.h) (ht : t < 3) :
    (bmpPixelData b).getD ((b.h - j - 1) * bmpRowSize b.w + (i * 3 + t)) 0 =
      [colB (bm_get b i j), colG (bm_get b i j), colR (bm_get b i j)].getD t 0 := by
  unfold bmpPixelData
  rw [flatMap_uniform_getD _ (bmpRowSize b.w) ((List.range b.h).reverse)
    (b.h - j - 1) (i * 3 + t)
    (by intro x _; exact bmpRowBytes_length b x)
    (by rw [List.length_reverse, List.length_range]; omega)
    (by
      unfold bmpRowSize bmpPad
      have h1 : i * 3 + t < b.w * 3 := by
        have : (i + 1) * 3 ≤ b.w * 3 := Nat.mul_le_mul_right 3 (by omega)
        omega
      omega)]
  rw [range_reverse_getD b.h (b.h - j - 1) (by omega)]
  have hjj : b.h - 1 - (b.h - j - 1) = j := by omega
  rw [hjj]
  exact bmpRowBytes_getD b j i t hi ht

theorem bmpRowSize_le (w : Nat) : bmpRowSize w ≤ 3 * w + 3 := by
  unfold bmpRowSize bmpPad
  by_cases h : 3 < 4 - w * 3 % 4
  · rw [if_pos h]
    omega
  · rw [if_neg h]
    omega

theorem bmpRowSize_pos (w : Nat) (hw : 1 ≤ w) : 3 ≤ bmpRowSize w := by
  unfold bmpRowSize bmpPad
  have : 3 ≤ w * 3 := by omega
  by_cases h : 3 < 4 - w * 3 % 4
  · rw [if_pos h]
    omega
  · rw [if_neg h]
    omega

/-- The header and length facts about a saved BMP stream needed to drive
the loader. -/
theorem bmp_save_fields (b : Bitmap) (hw : b.w ≤ 23000) (hh : b.h ≤ 23000) :
    rdByte (bm_save_bmp b) 0 = 66 ∧ rdByte (bm_save_bmp b) 1 = 77 ∧
    rdU32 (bm_save_bmp b) 10 = 54 ∧ rdU32 (bm_save_bmp b) 18 = b.w ∧
    rdU32 (bm_save_bmp b) 22 = b.h ∧ rdU16 (bm_save_bmp b) 28 = 24 ∧
    rdU32 (bm_save_bmp b) 30 = 0 ∧
    rdU32 (bm_save_bmp b) 34 = bmpRowSize b.w * b.h ∧
    (bm_save_bmp b).length = 54 + bmpRowSize b.w * b.h := by
  have hrs : bmpRowSize b.w ≤ 69003 := le_trans (bmpRowSize_le b.w) (by omega)
  have hbz : bmpRowSize b.w * b.h < 2 ^ 32 := by
    calc bmpRowSize b.w * b.h ≤ 69003 * 23000 := Nat.mul_le_mul hrs hh
    _ < 2 ^ 32 := by norm_num
  have hmagic : bm_save_bmp b = [66, 77] ++
      (le32 (54 + bmpRowSize b.w * b.h) ++ le16 0 ++ le16 0 ++ le32 54 ++
        le32 40 ++ le32 b.w ++ le32 b.h ++ le16 1 ++ le16 24 ++ le32 0 ++
        le32 (bmpRowSize b.w * b.h) ++ le32 2835 ++ le32 2835 ++ le32 0 ++
        le32 0 ++ bmpPixelData b) := by
    simp [bm_save_bmp, bmpHeader, List.append_assoc]
  refine ⟨?_, ?_, ?_, ?_, ?_, ?_, ?_, ?_, ?_⟩
  · rw [hmagic, rdByte, List.getD_append _ _ _ _ (by norm_num)]
    rfl
  · rw [hmagic, rdByte, List.getD_append _ _ _ _ (by norm_num)]
    rfl
  · have hsplit : bm_save_bmp b =
        ([66, 77] ++ le32 (54 + bmpRowSize b.w * b.h) ++ le16 0 ++ le16 0) ++
          (le32 54 ++
            (le32 40 ++ le32 b.w ++ le32 b.h ++ le16 1 ++ le16 24 ++ le32 0 ++
              le32 (bmpRowSize b.w * b.h) ++ le32 2835 ++ le32 2835 ++ le32 0 ++
              le32 0 ++ bmpPixelData b)) := by
      simp [bm_save_bmp, bmpHeader, List.append_assoc]
    rw [hsplit]
    have hl : ([66, 77] ++ le32 (54 + bmpRowSize b.w * b.h) ++ le16 0 ++
        le16 0).length = 10 := by
      simp [le32, le16]
    rw [← hl]
    exact rdU32_append _ _ 54 (by norm_num)
  · have hsplit : bm_save_bmp b =
        ([66, 77] ++ le32 (54 + bmpRowSize b.w * b.h) ++ le16 0 ++ le16 0 ++
            le32 54 ++ le32 40) ++
          (le32 b.w ++
            (le32 b.h ++ le16 1 ++ le16 24 ++ le32 0 ++
              le32 (bmpRowSize b.w * b.h) ++ le32 2835 ++ le32 2835 ++ le32 0 ++
              le32 0 ++ bmpPixelData b)) := by
      simp [bm_save_bmp, bmpHeader, List.append_assoc]
    rw [hsplit]
    have hl : ([66, 77] ++ le32 (54 + bmpRowSize b.w * b.h) ++ le16 0 ++
        le16 0 ++ le32 54 ++ le32 40).length = 18 := by
      simp [le32, le16]
    rw [← hl]
    exact rdU32_append _ _ b.w (by omega)
  · have hsplit : bm_save_bmp b =
        ([66, 77] ++ le32 (54 + bmpRowSize b.w * b.h) ++ le16 0 ++ le16 0 ++
            le32 54 ++ le32 40 ++ le32 b.w) ++
          (le32 b.h ++
            (le16 1 ++ le16 24 ++ le32 0 ++ le32 (bmpRowSize b.w * b.h) ++
              le32 2835 ++ le32 2835 ++ le32 0 ++ le32 0 ++ bmpPixelData b)) := by
      simp [bm_save_bmp, bmpHeader, List.append_assoc]
    rw [hsplit]
    have hl : ([66, 77] ++ le32 (54 + bmpRowSize b.w * b.h) ++ le16 0 ++
        le16 0 ++ le32 54 ++ le32 40 ++ le32 b.w).length = 22 := by
      simp [le32, le16]
    rw [← hl]
    exact rdU32_append _ _ b.h (by omega)
  · have hsplit : bm_save_bmp b =
        ([66, 77] ++ le32 (54 + bmpRowSize b.w * b.h) ++ le16 0 ++ le16 0 ++
            le32 54 ++ le32 40 ++ le32 b.w ++ le32 b.h ++ le16 1) ++
          (le16 24 ++
            (le32 0 ++ le32 (bmpRowSize b.w * b.h) ++ le32 2835 ++ le32 2835 ++
              le32 0 ++ le32 0 ++ bmpPixelData b)) := by
      simp [bm_save_bmp, bmpHeader, List.append_assoc]
    rw [hsplit]
    have hl : ([66, 77] ++ le32 (54 + bmpRowSize b.w * b.h) ++ le16 0 ++
        le16 0 ++ le32 54 ++ le32 40 ++ le32 b.w ++ le32 b.h ++
        le16 1).length = 28 := by
      simp [le32, le16]
    rw [← hl]
    exact rdU16_append _ _ 24 (by norm_num)
  · have hsplit : bm_save_bmp b =
        ([66, 77] ++ le32 (54 + bmpRowSize b.w * b.h) ++ le16 0 ++ le16 0 ++
            le32 54 ++ le32 40 ++ le32 b.w ++ le32 b.h ++ le16 1 ++ le16 24) ++
          (le32 0 ++
            (le32 (bmpRowSize b.w * b.h) ++ le32 2835 ++ le32 2835 ++ le32 0 ++
              le32 0 ++ bmpPixelData b)) := by
      simp [bm_save_bmp, bmpHeader, List.append_assoc]
    rw [hsplit]
    have hl : ([66, 77] ++ le32 (54 + bmpRowSize b.w * b.h) ++ le16 0 ++
        le16 0 ++ le32 54 ++ le32 40 ++ le32 b.w ++ le32 b.h ++ le16 1 ++
        le16 24).length = 30 := by
      simp [le32, le16]
    rw [← hl]
    exact rdU32_append _ _ 0 (by norm_num)
  · have hsplit : bm_save_bmp b =
        ([66, 77] ++ le32 (54 + bmpRowSize b.w * b.h) ++ le16 0 ++ le16 0 ++
            le32 54 ++ le32 40 ++ le32 b.w ++ le32 b.h ++ le16 1 ++ le16 24 ++
            le32 0) ++
          (le32 (bmpRowSize b.w * b.h) ++
            (le32 2835 ++ le32 2835 ++ le32 0 ++ le32 0 ++ bmpPixelData b)) := by
      simp [bm_save_bmp, bmpHeader, List.append_assoc]
    rw [hsplit]
    have hl : ([66, 77] ++ le32 (54 + bmpRowSize b.w * b.h) ++ le16 0 ++
        le16 0 ++ le32 54 ++ le32 40 ++ le32 b.w ++ le32 b.h ++ le16 1 ++
        le16 24 ++ le32 0).length = 34 := by
      simp [le32, le16]
    rw [← hl]
    exact rdU32_append _ _ _ hbz
  · have : (bmpHeader b).length = 54 := by
      simp [bmpHeader, le32, le16]
    rw [bm_save_bmp, List.length_append, this, bmpPixelData_length]

/-- Decoding of the 24 bpp `BI_RGB` pixel data (bmp.c:926-934): pixel
`(i,j)` is read from bytes `p = (h-j-1)*rs + i*3` as `B,G,R` and stored
with alpha `0xFF` (`BM_SET_RGBA`), i.e. as the 32-bit word
`0xFF000000 | R<<16 | G<<8 | B`.  Pixels are laid out row-major
(index `j*w + i`); positions bm_create zero-initialised stay 0. -/
def bmDecode24 (data : List Nat) (w h : Nat) : Bitmap :=
  ⟨w, h, fun idx =>
    if idx < w * h then
      0xFF000000 +
        data.getD ((h - idx / w - 1) * ((w * 24 / 8 + 3) / 4 * 4) + idx % w * 3 + 2) 0 *
          2 ^ 16 +
        data.getD ((h - idx / w - 1) * ((w * 24 / 8 + 3) / 4 * 4) + idx % w * 3 + 1) 0 *
          2 ^ 8 +
        data.getD ((h - idx / w - 1) * ((w * 24 / 8 + 3) / 4 * 4) + idx % w * 3) 0
    else 0⟩

/-- `bm_load_bmp_rd` (bmp.c:738-948) on an in-memory byte stream starting
at offset 0.  The guards mirror the source in order: short reads of magic,
`bmpfile_header` and `bmpfile_dibinfo`; the magic check; the supported
`bitspp` and `compress_type` sets; `bm_create`'s dimension checks
(including the `SIZE_LIMITS` bounds); then the branch dispatch.  Only the
24 bpp `BI_RGB` branch is modelled concretely (the only branch a stream
written by `bm_save_bmp` can reach); the palette branches (`bitspp <= 8`),
the `BI_BITFIELDS` mask read and the 32 bpp branch (whose per-channel
scaling is `float` arithmetic) are represented by `none`. -/
def bm_load_bmp (bs : List Nat) : Option Bitmap :=
  if bs.length < 2 then none
  else if ¬(rdByte bs 0 = 66 ∧ rdByte bs 1 = 77) then none
  else if bs.length < 14 then none
  else if bs.length < 54 then none
  else if ¬(rdU16 bs 28 = 1 ∨ rdU16 bs 28 = 4 ∨ rdU16 bs 28 = 8 ∨
      rdU16 bs 28 = 24 ∨ rdU16 bs 28 = 32) then none
  else if ¬(rdU32 bs 30 = 0 ∨ rdU32 bs 30 = 3) then none
  else if rdI32 bs 18 ≤ 0 ∨ rdI32 bs 22 ≤ 0 then none
  else if 23000 < rdI32 bs 18 ∨ 23000 < rdI32 bs 22 ∨
      (536870911 : Int) < rdI32 bs 18 * rdI32 bs 22 then none
  else if rdU16 bs 28 ≤ 8 then none
  else if rdU32 bs 30 = 3 then none
  else if rdU16 bs 28 = 32 then none
  else if bs.length < rdU32 bs 10 +
      (if rdU32 bs 34 = 0 then
        ((rdI32 bs 18).toNat * 24 / 8 + 3) / 4 * 4 * (rdI32 bs 22).toNat
      else rdU32 bs 34) then none
  else
    some (bmDecode24
      ((bs.drop (rdU32 bs 10)).take
        (if rdU32 bs 34 = 0 then
          ((rdI32 bs 18).toNat * 24 / 8 + 3) / 4 * 4 * (rdI32 bs 22).toNat
        else rdU32 bs 34))
      (rdI32 bs 18).toNat (rdI32 bs 22).toNat)

theorem rowmajor_mod (w x y : Nat) (hx : x < w) : (y * w + x) % w = x := by
  rw [Nat.add_comm, Nat.add_mul_mod_self_right, Nat.mod_eq_of_lt hx]

theorem rowmajor_div (w x y : Nat) (hx : x < w) : (y * w + x) / w = y := by
  rw [Nat.mul_comm, Nat.mul_add_div (by omega), Nat.div_eq_of_lt hx]
  omega

/-- C2: loading a saved 24-bit BMP yields a bitmap of the same dimensions
whose every pixel has the same R, G and B bytes as the original (and alpha
forced to 0xFF; the original alpha is not preserved).  The hypotheses are
the `Bitmap` size invariants enforced by `bm_create` (bmp.c:280-289). -/
theorem bmp_save_load_roundtrip (b : Bitmap) (hw1 : 1 ≤ b.w) (hw2 : b.w ≤ 23000)
    (hh1 : 1 ≤ b.h) (hh2 : b.h ≤ 23000) (hwh : b.w * b.h ≤ 536870911) :
    ∃ L, bm_load_bmp (bm_save_bmp b) = some L ∧ L.w = b.w ∧ L.h = b.h ∧
      ∀ x y, x < b.w → y < b.h →
        colR (bm_get L x y) = colR (bm_get b x y) ∧
        colG (bm_get L x y) = colG (bm_get b x y) ∧
        colB (bm_get L x y) = colB (bm_get b x y) ∧
        bm_get L x y / 2 ^ 24 = 255 := by
  obtain ⟨hm0, hm1, h10, h18, h22, h28, h30, h34, hlen⟩ := bmp_save_fields b hw2 hh2
  have hrs3 : 3 ≤ bmpRowSize b.w := bmpRowSize_pos b.w hw1
  have hrsh : 3 ≤ bmpRowSize b.w * b.h := by
    calc (3 : Nat) = 3 * 1 := by norm_num
    _ ≤ bmpRowSize b.w * b.h := Nat.mul_le_mul hrs3 hh1
  have hI18 : rdI32 (bm_save_bmp b) 18 = (b.w : Int) := by
    rw [rdI32, h18, if_neg (by omega)]
  have hI22 : rdI32 (bm_save_bmp b) 22 = (b.h : Int) := by
    rw [rdI32, h22, if_neg (by omega)]
  have hdata : ((bm_save_bmp b).drop 54).take (bmpRowSize b.w * b.h) =
      bmpPixelData b := by
    rw [bm_save_bmp]
    have h54 : (bmpHeader b).length = 54 := by simp [bmpHeader, le32, le16]
    rw [← h54, List.drop_left, ← bmpPixelData_length b, List.take_length]
  refine ⟨bmDecode24 (bmpPixelData b) b.w b.h, ?_, rfl, rfl, ?_⟩
  · unfold bm_load_bmp
    rw [hm0, hm1, h10, h28, h30, h34, hI18, hI22, hlen]
    rw [if_neg (by omega), if_neg (by simp), if_neg (by omega), if_neg (by omega)]
    rw [if_neg (by norm_num), if_neg (by norm_num)]
    rw [if_neg (by omega)]
    rw [if_neg (by
      push_neg
      refine ⟨by omega, by omega, ?_⟩
      have : ((b.w : Int)) * ((b.h : Int)) = ((b.w * b.h : Nat) : Int) := by
        push_cast
        ring
      rw [this]
      omega)]
    rw [if_neg (by norm_num), if_neg (by norm_num), if_neg (by norm_num)]
    rw [Int.toNat_ofNat, Int.toNat_ofNat, ← bmpRowSize_eq_load, ite_self]
    rw [if_neg (by omega), hdata]
  · intro x y hx hy
    have hidx : y * b.w + x < b.w * b.h := by
      have h1 : y * b.w + x < (y + 1) * b.w := by
        have : (y + 1) * b.w = y * b.w + b.w := by ring
        omega
      have h2 : (y + 1) * b.w ≤ b.h * b.w := Nat.mul_le_mul_right _ (by omega)
      calc y * b.w + x < (y + 1) * b.w := h1
      _ ≤ b.h * b.w := h2
      _ = b.w * b.h := Nat.mul_comm _ _
    have hget : bm_get (bmDecode24 (bmpPixelData b) b.w b.h) x y =
        255 * 2 ^ 24 +
          colR (bm_get b x y) * 2 ^ 16 + colG (bm_get b x y) * 2 ^ 8 +
          colB (bm_get b x y) := by
      unfold bm_get bmDecode24
      simp only
      rw [if_pos hidx, rowmajor_div b.w x y hx, rowmajor_mod b.w x y hx,
        ← bmpRowSize_eq_load]
      have e2 : (b.h - y - 1) * bmpRowSize b.w + x * 3 + 2 =
          (b.h - y - 1) * bmpRowSize b.w + (x * 3 + 2) := by omega
      have e1 : (b.h - y - 1) * bmpRowSize b.w + x * 3 + 1 =
          (b.h - y - 1) * bmpRowSize b.w + (x * 3 + 1) := by omega
      have e0 : (b.h - y - 1) * bmpRowSize b.w + x * 3 =
          (b.h - y - 1) * bmpRowSize b.w + (x * 3 + 0) := by omega
      rw [e2, e1, e0,
        bmpPixelData_getD b x y 2 hx hy (by omega),
        bmpPixelData_getD b x y 1 hx hy (by omega),
        bmpPixelData_getD b x y 0 hx hy (by omega)]
      simp [List.getD, bm_get]
    rw [hget]
    have hR := colR_lt (bm_get b x y)
    have hG := colG_lt (bm_get b x y)
    have hB := colB_lt (bm_get b x y)
    refine ⟨?_, ?_, ?_, ?_⟩
    · unfold colR
      omega
    · unfold colG
      omega
    · unfold colB
      omega
    · omega

/-- Witness for C2 at a concrete 1x1 bitmap with pixel `0x12345678`. -/
theorem bmp_save_load_roundtrip_witness :
    ∃ L, bm_load_bmp (bm_save_bmp ⟨1, 1, fun _ => 0x12345678⟩) = some L ∧
      L.w = 1 ∧ L.h = 1 ∧
      ∀ x y, x < 1 → y < 1 →
        colR (bm_get L x y) = colR (bm_get ⟨1, 1, fun _ => 0x12345678⟩ x y) ∧
        colG (bm_get L x y) = colG (bm_get ⟨1, 1, fun _ => 0x12345678⟩ x y) ∧
        colB (bm_get L x y) = colB (bm_get ⟨1, 1, fun _ => 0x12345678⟩ x y) ∧
        bm_get L x y / 2 ^ 24 = 255 :=
  bmp_save_load_roundtrip ⟨1, 1, fun _ => 0x12345678⟩ (by decide) (by decide)
    (by decide) (by decide) (by decide)

/-! ### LZW codec (C1, bmp.c:2558-2845)

`lzw_emit_code` writes codes LSB-first at a bit cursor into a
zero-initialised byte buffer, `lzw_read_code` reads them back; the final
length is `ceil(pos/8)` bytes.  We model the emitted stream as the list of
`(code, width)` pairs in emission order, its bit stream as the
concatenation of the LSB-first bit lists, and the byte buffer as the bit
stream chopped into bytes (LSB-first within each byte, the last byte
zero-padded) — exactly the buffer `lzw_emit_code` builds.  Dictionary
entries `(prev, code)` are C `int`s, modelled as `Int × Int` with
functional update; entries are only ever read at indices that have been
initialised or inserted, so the representation function covers them
faithfully.  `unsigned char` conversions (`stack[sp++] = ...`) are
`emod 256`. -/

end Bmp
